import Mathlib

/-!
Verification development for the Share-Me relay: a shallow embedding of
the room/session registry and the chunked file-relay protocol
(`src/server.js`, `src/public/app-fast.js`, `src/health-endpoint-addition.js`),
together with theorems about the embedded operations.

Bytes are modelled as `Nat` below 256 (the contents of a `Uint8Array`),
strings as `List Char`, JavaScript `Map`s as association lists in insertion
order, and JavaScript `Set`s of socket ids as `Finset String`.
-/

namespace ShareMe

/-! ## Base64 codec

The sender encodes each chunk with `btoa(String.fromCharCode(...bytes))`
and the receiver decodes with `atob` followed by `charCodeAt`; these browser
primitives implement standard base64 over byte strings, modelled here.
-/

/-- The standard base64 alphabet, in sextet order. -/
def b64Table : List Char :=
  ("ABCDEFGHIJKLMNOPQRSTUVWXYZabcdefghijklmnopqrstuvwxyz0123456789+/").toList

/-- The base64 padding character. -/
def b64Pad : Char := Char.ofNat 61

/-- Character of a sextet value. -/
def b64Chr (n : Nat) : Char := b64Table.getD n (Char.ofNat 65)

/-- Sextet value of an alphabet character. -/
def b64Idx (c : Char) : Nat := b64Table.findIdx (fun x => x = c)

/-- Base64 encoding of a byte sequence, as performed by `btoa`. -/
def b64Encode : List Nat → List Char
  | [] => []
  | [b0] => [b64Chr (b0 / 4), b64Chr (b0 % 4 * 16), b64Pad, b64Pad]
  | [b0, b1] =>
      [b64Chr (b0 / 4), b64Chr (b0 % 4 * 16 + b1 / 16), b64Chr (b1 % 16 * 4), b64Pad]
  | b0 :: b1 :: b2 :: rest =>
      b64Chr (b0 / 4) :: b64Chr (b0 % 4 * 16 + b1 / 16) ::
      b64Chr (b1 % 16 * 4 + b2 / 64) :: b64Chr (b2 % 64) :: b64Encode rest

/-- Base64 decoding of an encoded text back to bytes, as performed by
`atob` followed by per-character `charCodeAt`. -/
def b64Decode : List Char → List Nat
  | c0 :: c1 :: c2 :: c3 :: rest =>
      if c2 = b64Pad then
        [b64Idx c0 * 4 + b64Idx c1 / 16]
      else if c3 = b64Pad then
        [b64Idx c0 * 4 + b64Idx c1 / 16, b64Idx c1 % 16 * 16 + b64Idx c2 / 4]
      else
        [b64Idx c0 * 4 + b64Idx c1 / 16, b64Idx c1 % 16 * 16 + b64Idx c2 / 4,
          b64Idx c2 % 4 * 64 + b64Idx c3] ++ b64Decode rest
  | _ => []

/-! ## Sender pipeline

`sendFile` in `app-fast.js` slices the file into 64 KiB windows with
`file.slice(offset, offset + chunkSize)`, base64-encodes each window, and
emits `{chunkIndex, data, isLast}` with `isLast = offset + chunkSize >= file.size`
computed before advancing; it continues while the advanced offset is still
below the file size (so even an empty file emits one empty chunk).
-/

/-- The 64 KiB chunk size `this.fileChunkSize` of the sender. -/
def fileChunkSize : Nat := 65536

/-- One emitted `file-chunk` payload (the fields the receiver consumes). -/
structure ChunkMsg where
  chunkIndex : Nat
  data : List Char
  isLast : Bool
deriving DecidableEq

/-- The chunk-emission loop `sendNextChunk`, started at a given offset and
chunk index. -/
def sendLoop (bytes : List Nat) (offset idx : Nat) : List ChunkMsg :=
  if offset + fileChunkSize < bytes.length then
    ⟨idx, b64Encode ((bytes.drop offset).take fileChunkSize),
      decide (offset + fileChunkSize ≥ bytes.length)⟩ ::
      sendLoop bytes (offset + fileChunkSize) (idx + 1)
  else
    [⟨idx, b64Encode ((bytes.drop offset).take fileChunkSize),
      decide (offset + fileChunkSize ≥ bytes.length)⟩]
termination_by bytes.length - offset
decreasing_by simp only [fileChunkSize] at *; omega

/-- All chunks the sender emits for a file: the loop from offset 0, index 0. -/
def sendFileChunks (bytes : List Nat) : List ChunkMsg := sendLoop bytes 0 0

/-! ## Receiver pipeline

`handleFileChunk` decodes the base64 payload and stores it at `chunkIndex`
in a sparse array (which grows to `chunkIndex + 1` when written past its
end), adding the decoded length to `receivedSize`; `handleFileComplete`
concatenates the present entries in index order, skipping holes.
-/

/-- Receiver-side state for one file transfer: the sparse chunk array
(modelled as its indexed contents plus its JavaScript `length`), and the
running received-byte counter. -/
structure RecvFile where
  chunks : Nat → Option (List Nat)
  len : Nat
  receivedSize : Nat

/-- The empty buffer allocated by `handleFileInfo` (`chunks: [], receivedSize: 0`). -/
def emptyRecvFile : RecvFile := ⟨fun _ => none, 0, 0⟩

/-- The assignment `fileInfo.chunks[data.chunkIndex] = bytes` plus the
`receivedSize += bytes.length` update. -/
def storeChunk (buf : RecvFile) (idx : Nat) (bytes : List Nat) : RecvFile :=
  ⟨fun j => if j = idx then some bytes else buf.chunks j,
   max buf.len (idx + 1), buf.receivedSize + bytes.length⟩

/-- `handleFileChunk` for one arriving `(chunkIndex, data)` payload. -/
def handleChunkMsg (buf : RecvFile) (idx : Nat) (data : List Char) : RecvFile :=
  storeChunk buf idx (b64Decode data)

/-- The receiver state after a sequence of chunk arrivals. -/
def receiveMsgs (msgs : List ChunkMsg) (buf : RecvFile) : RecvFile :=
  msgs.foldl (fun b m => handleChunkMsg b m.chunkIndex m.data) buf

/-- `handleFileComplete`: concatenate the buffer entries in index order;
an unpopulated index contributes nothing. -/
def reassemble (buf : RecvFile) : List Nat :=
  ((List.range buf.len).map (fun j => (buf.chunks j).getD [])).flatten

/-! ## Out-of-order arrival -/

/-- The decoded block that ends up at buffer index `j` after a sequence of
chunk arrivals: the last arriving message with that chunk index wins. -/
def lastStore (msgs : List ChunkMsg) (j : Nat) : Option (List Nat) :=
  match msgs with
  | [] => none
  | m :: rest =>
      match lastStore rest j with
      | some v => some v
      | none => if m.chunkIndex = j then some (b64Decode m.data) else none

/-! ## Server model

`server.js` keeps two process-wide JavaScript `Map`s — `rooms` (room code →
`Set` of socket ids) and `rateLimit` (socket id → array of timestamps) —
modelled as association lists in insertion order, with `Set`s of socket ids
as `Finset String`.
-/

/-- `RATE_LIMIT_WINDOW` (one minute, in milliseconds). -/
def rlWindowMs : Nat := 60000

/-- `MAX_REQUESTS_PER_WINDOW`. -/
def rlMaxRequests : Nat := 30

/-- `MAX_ROOM_SIZE`. -/
def maxRoomSize : Nat := 10

/-- JavaScript `Map.get` / `Map.has` (via `isSome`). -/
def mapGet {K V : Type} [DecidableEq K] (m : List (K × V)) (k : K) : Option V :=
  (m.find? (fun p => p.1 = k)).map (fun p => p.2)

/-- JavaScript `Map.set`: replace in place when the key is present,
append otherwise. -/
def mapSet {K V : Type} [DecidableEq K] (m : List (K × V)) (k : K) (v : V) :
    List (K × V) :=
  if (mapGet m k).isSome then m.map (fun p => if p.1 = k then (k, v) else p)
  else m ++ [(k, v)]

/-- JavaScript `Map.delete`. -/
def mapDelete {K V : Type} [DecidableEq K] (m : List (K × V)) (k : K) : List (K × V) :=
  m.filter (fun p => p.1 ≠ k)

/-- Membership in the character class `[A-Z0-9]` of the sanitizing regex. -/
def isUpperAlnum (c : Char) : Bool :=
  (65 ≤ c.toNat && c.toNat ≤ 90) || (48 ≤ c.toNat && c.toNat ≤ 57)

/-- JavaScript `toUpperCase` on one character, for the ASCII range that can
reach it here (its input has already been restricted to `[A-Z0-9]`). -/
def jsToUpper (c : Char) : Char :=
  if 97 ≤ c.toNat ∧ c.toNat ≤ 122 then Char.ofNat (c.toNat - 32) else c

/-- `sanitizeRoomId`: `replace(/[^A-Z0-9]/g, "")`, then `substring(0, 6)`,
then `toUpperCase()` — in that order. -/
def sanitizeRoomId (s : List Char) : List Char :=
  ((s.filter isUpperAlnum).take 6).map jsToUpper

/-- `validateRoomId`: the regex test `^[A-Z0-9]{6}$`. -/
def validateRoomId (s : List Char) : Bool :=
  s.length = 6 && s.all isUpperAlnum

/-- A structured event emitted by the server. -/
inductive SEvent where
  | errorMsg (msg : String)
  | usersInRoom (users : Finset String)
  | userJoined (sid : String)
  | roomStatus (room : List Char) (userCount : Nat) (users : Finset String)
  | userLeft (sid : String)
  | fileInfoEv (fileId fileName : String) (fileSize : Nat) (mimeType : String)
      (sender : String)
  | fileChunkEv (fileId : String) (chunkIndex : Nat) (data : List Char) (isLast : Bool)
      (sender : String)
  | fileCompleteEv (fileId : String) (sender : String)
  | pongEv (timestamp serverTime : Nat)
deriving DecidableEq

/-- An observable effect of a handler: a direct emit to one socket
(`socket.emit`), a delivery to an explicit recipient set (`socket.to(...)`
or `io.to(...)`), or a forced disconnect (which no handler performs). -/
inductive SAction where
  | emit (target : String) (ev : SEvent)
  | emitRoom (recipients : Finset String) (ev : SEvent)
  | disconnectSock (target : String)
deriving DecidableEq

/-- The process-wide mutable registries of `server.js`. -/
structure ServerState where
  rooms : List (List Char × Finset String)
  rateLimit : List (String × List Nat)

/-- The state at server start: both maps empty. -/
def initialState : ServerState := ⟨[], []⟩

/-- `checkRateLimit`: prune timestamps older than the window; deny when 30
or more remain (leaving the stored record untouched), otherwise record the
current time and admit. -/
def checkRateLimit (st : ServerState) (sid : String) (now : Nat) :
    Bool × ServerState :=
  let userRequests := (mapGet st.rateLimit sid).getD []
  let validRequests := userRequests.filter (fun t => now - t < rlWindowMs)
  if rlMaxRequests ≤ validRequests.length then (false, st)
  else (true, { st with rateLimit := mapSet st.rateLimit sid (validRequests ++ [now]) })

/-- The `join-room` payload: either a string or some other JavaScript value
(the handler checks `typeof roomId !== "string"`, and `!roomId` catches the
empty string). -/
inductive RawRoomId where
  | str (s : List Char)
  | nonString
deriving DecidableEq

/-- The success tail of the `join-room` handler: create the room set on
demand, add the socket, and emit `users-in-room` (to the joiner, without
itself), `user-joined` (to the others), and `room-status` (to everyone). -/
def joinProceed (st : ServerState) (sid : String) (r : List Char) :
    ServerState × List SAction :=
  let members := insert sid ((mapGet st.rooms r).getD ∅)
  ({ st with rooms := mapSet st.rooms r members },
   [SAction.emit sid (SEvent.usersInRoom (members.erase sid)),
    SAction.emitRoom (members.erase sid) (SEvent.userJoined sid),
    SAction.emitRoom members (SEvent.roomStatus r members.card members)])

/-- The `join-room` handler: rate limit, then type/emptiness check, then
sanitize + validate, then capacity check, then the success tail. -/
def joinRoom (st : ServerState) (sid : String) (raw : RawRoomId) (now : Nat) :
    ServerState × List SAction :=
  match checkRateLimit st sid now with
  | (false, st1) =>
      (st1, [SAction.emit sid (SEvent.errorMsg ("Too many requests. Please wait."))])
  | (true, st1) =>
      match raw with
      | RawRoomId.nonString =>
          (st1, [SAction.emit sid (SEvent.errorMsg ("Invalid room code format."))])
      | RawRoomId.str s =>
          if s = [] then
            (st1, [SAction.emit sid (SEvent.errorMsg ("Invalid room code format."))])
          else
            if validateRoomId (sanitizeRoomId s) then
              match mapGet st1.rooms (sanitizeRoomId s) with
              | some members =>
                  if maxRoomSize ≤ members.card then
                    (st1, [SAction.emit sid
                      (SEvent.errorMsg ("Room is full. Maximum 10 users allowed."))])
                  else joinProceed st1 sid (sanitizeRoomId s)
              | none => joinProceed st1 sid (sanitizeRoomId s)
            else
              (st1, [SAction.emit sid
                (SEvent.errorMsg ("Room code must be 6 alphanumeric characters."))])

/-- The `leave-room` handler: if the socket is a member of the named room,
remove it, notify the remaining members, and delete the room if now empty. -/
def leaveRoom (st : ServerState) (sid : String) (roomId : List Char) :
    ServerState × List SAction :=
  match mapGet st.rooms roomId with
  | some users =>
      if sid ∈ users then
        ({ st with rooms :=
            if (users.erase sid).card = 0 then mapDelete st.rooms roomId
            else mapSet st.rooms roomId (users.erase sid) },
         [SAction.emitRoom (users.erase sid) (SEvent.userLeft sid)])
      else (st, [])
  | none => (st, [])

/-- The `disconnect` handler: scan every room, remove the socket wherever it
is a member, notify the remaining members (`io.to`, the disconnected socket
having already left), and delete rooms that become empty. -/
def disconnectH (st : ServerState) (sid : String) : ServerState × List SAction :=
  ({ st with rooms := st.rooms.filterMap (fun p =>
      if sid ∈ p.2 then
        (if (p.2.erase sid).card = 0 then none else some (p.1, p.2.erase sid))
      else some p) },
   st.rooms.filterMap (fun p =>
      if sid ∈ p.2 then some (SAction.emitRoom (p.2.erase sid) (SEvent.userLeft sid))
      else none))

/-- The periodic cleanup (`setInterval`): drop empty rooms and rate-limit
records with no timestamp left inside the window. -/
def sweepH (st : ServerState) (now : Nat) : ServerState :=
  { rooms := st.rooms.filter (fun p => ¬ (p.2.card = 0)),
    rateLimit := st.rateLimit.filterMap (fun p =>
      if (p.2.filter (fun t => now - t < rlWindowMs)).length = 0 then none
      else some (p.1, p.2.filter (fun t => now - t < rlWindowMs))) }

/-- The current member set of a room (empty if the room is absent). -/
def roomMembers (st : ServerState) (room : List Char) : Finset String :=
  (mapGet st.rooms room).getD ∅

/-- The `file-info` handler: `socket.to(data.room)` fan-out, tagged with the
sender socket id. -/
def fileInfoH (st : ServerState) (sender : String) (room : List Char)
    (fileId fileName : String) (fileSize : Nat) (mimeType : String) : List SAction :=
  [SAction.emitRoom ((roomMembers st room).erase sender)
    (SEvent.fileInfoEv fileId fileName fileSize mimeType sender)]

/-- The `file-chunk` handler: `socket.to(data.room)` fan-out, tagged with the
sender socket id. -/
def fileChunkH (st : ServerState) (sender : String) (room : List Char)
    (fileId : String) (chunkIndex : Nat) (data : List Char) (isLast : Bool) :
    List SAction :=
  [SAction.emitRoom ((roomMembers st room).erase sender)
    (SEvent.fileChunkEv fileId chunkIndex data isLast sender)]

/-- The `file-complete` handler: `socket.to(data.room)` fan-out, tagged with
the sender socket id. -/
def fileCompleteH (st : ServerState) (sender : String) (room : List Char)
    (fileId : String) : List SAction :=
  [SAction.emitRoom ((roomMembers st room).erase sender)
    (SEvent.fileCompleteEv fileId sender)]

/-! ## Health endpoint (`health-endpoint-addition.js`) -/

/-- The JSON body of the `/health` response. -/
structure HealthBody where
  status : String
  uptime : Nat
  memory : String
deriving DecidableEq

/-- The `/health` route handler: `res.json` (HTTP 200) with a fixed status
string, the process uptime, and `Math.round(heapUsed / 1024 / 1024) + "MB"`.
It reads nothing from the relay state it is given. -/
def healthH (_relay : ServerState) (uptime heapUsedBytes : Nat) : Nat × HealthBody :=
  (200, ⟨("healthy"), uptime,
    toString ((2 * heapUsedBytes + 1048576) / 2097152) ++ ("MB")⟩)

/-! ## Rate limiter lemmas and C4 -/

/-- The admission condition of `checkRateLimit`: fewer than 30 of the stored
timestamps lie strictly within the trailing 60-second window. -/
def rlAllowed (st : ServerState) (sid : String) (now : Nat) : Prop :=
  (((mapGet st.rateLimit sid).getD []).filter (fun t => now - t < rlWindowMs)).length
    < rlMaxRequests

instance rlAllowedDec (st : ServerState) (sid : String) (now : Nat) :
    Decidable (rlAllowed st sid now) := by
  unfold rlAllowed
  exact inferInstance

/-- A sequence of admission checks for one connection, returning the
decisions in order together with the final state. -/
def runRateChecks : ServerState → String → List Nat → List Bool × ServerState
  | st, _, [] => ([], st)
  | st, sid, t :: ts =>
      ((checkRateLimit st sid t).1 :: (runRateChecks (checkRateLimit st sid t).2 sid ts).1,
       (runRateChecks (checkRateLimit st sid t).2 sid ts).2)

/-! ## Room registry invariant (C3) -/

/-- The registry invariant: every room present in the map has a non-empty
member set of at most `MAX_ROOM_SIZE` members (absent rooms have no members,
so presence coincides with non-emptiness). -/
def RoomsInv (rooms : List (List Char × Finset String)) : Prop :=
  ∀ p ∈ rooms, (p.2 : Finset String).Nonempty ∧ p.2.card ≤ maxRoomSize

/-! ## Rejected joins (C8, C10) -/

/-- The conditions under which the `join-room` handler rejects a request:
rate-limit denial, a non-string or empty room code, a sanitized code failing
the format check, or a full target room. -/
def joinRejected (st : ServerState) (sid : String) (raw : RawRoomId) (now : Nat) : Prop :=
  ¬ rlAllowed st sid now ∨
  raw = RawRoomId.nonString ∨
  (∃ s, raw = RawRoomId.str s ∧
    (s = [] ∨ validateRoomId (sanitizeRoomId s) = false ∨
      maxRoomSize ≤ ((mapGet st.rooms (sanitizeRoomId s)).getD ∅).card))

/-! ## Relay never echoes to the sender (C6) -/

/-- The sender identity a broadcast event is tagged with, for the event kinds
the relay fans out to a room. -/
def SEvent.senderTag : SEvent → Option String
  | SEvent.userJoined sid => some sid
  | SEvent.userLeft sid => some sid
  | SEvent.fileInfoEv _ _ _ _ sender => some sender
  | SEvent.fileChunkEv _ _ _ _ sender => some sender
  | SEvent.fileCompleteEv _ sender => some sender
  | _ => none

/-! ## Theorems -/

theorem b64Idx_b64Chr : ∀ n < 64, b64Idx (b64Chr n) = n := by decide

theorem b64Chr_ne_pad : ∀ n < 64, ¬ (b64Chr n = b64Pad) := by decide

theorem b64_roundtrip :
    ∀ bytes : List Nat, (∀ b ∈ bytes, b < 256) → b64Decode (b64Encode bytes) = bytes := by
  intro bytes
  induction bytes using b64Encode.induct with
  | case1 =>
      intro _; rfl
  | case2 b0 =>
      intro h
      have hb0 : b0 < 256 := h b0 (by simp)
      have e1 : b64Idx (b64Chr (b0 / 4)) = b0 / 4 := b64Idx_b64Chr _ (by omega)
      have e2 : b64Idx (b64Chr (b0 % 4 * 16)) = b0 % 4 * 16 := b64Idx_b64Chr _ (by omega)
      simp [b64Encode, b64Decode, e1, e2]
      omega
  | case3 b0 b1 =>
      intro h
      have hb0 : b0 < 256 := h b0 (by simp)
      have hb1 : b1 < 256 := h b1 (by simp)
      have h2 : ¬ (b64Chr (b1 % 16 * 4) = b64Pad) := b64Chr_ne_pad _ (by omega)
      have e1 : b64Idx (b64Chr (b0 / 4)) = b0 / 4 := b64Idx_b64Chr _ (by omega)
      have e2 : b64Idx (b64Chr (b0 % 4 * 16 + b1 / 16)) = b0 % 4 * 16 + b1 / 16 :=
        b64Idx_b64Chr _ (by omega)
      have e3 : b64Idx (b64Chr (b1 % 16 * 4)) = b1 % 16 * 4 := b64Idx_b64Chr _ (by omega)
      simp [b64Encode, b64Decode, h2, e1, e2, e3]
      omega
  | case4 b0 b1 b2 rest ih =>
      intro h
      have hb0 : b0 < 256 := h b0 (by simp)
      have hb1 : b1 < 256 := h b1 (by simp)
      have hb2 : b2 < 256 := h b2 (by simp)
      have h2 : ¬ (b64Chr (b1 % 16 * 4 + b2 / 64) = b64Pad) := b64Chr_ne_pad _ (by omega)
      have h3 : ¬ (b64Chr (b2 % 64) = b64Pad) := b64Chr_ne_pad _ (by omega)
      have hrest : ∀ b ∈ rest, b < 256 := by
        intro b hb; exact h b (by simp [hb])
      have e1 : b64Idx (b64Chr (b0 / 4)) = b0 / 4 := b64Idx_b64Chr _ (by omega)
      have e2 : b64Idx (b64Chr (b0 % 4 * 16 + b1 / 16)) = b0 % 4 * 16 + b1 / 16 :=
        b64Idx_b64Chr _ (by omega)
      have e3 : b64Idx (b64Chr (b1 % 16 * 4 + b2 / 64)) = b1 % 16 * 4 + b2 / 64 :=
        b64Idx_b64Chr _ (by omega)
      have e4 : b64Idx (b64Chr (b2 % 64)) = b2 % 64 := b64Idx_b64Chr _ (by omega)
      simp [b64Encode, b64Decode, h2, h3, e1, e2, e3, e4, ih hrest]
      omega

theorem reassemble_emptyRecvFile : reassemble emptyRecvFile = [] := rfl

theorem receiveMsgs_cons (i : Nat) (d : List Char) (l : Bool)
    (msgs : List ChunkMsg) (buf : RecvFile) :
    receiveMsgs (⟨i, d, l⟩ :: msgs) buf = receiveMsgs msgs (handleChunkMsg buf i d) := rfl

theorem receiveMsgs_single (i : Nat) (d : List Char) (l : Bool) (buf : RecvFile) :
    receiveMsgs [⟨i, d, l⟩] buf = handleChunkMsg buf i d := rfl

theorem storeChunk_len_of_eq (buf : RecvFile) (idx : Nat) (c : List Nat)
    (h : buf.len = idx) : (storeChunk buf idx c).len = idx + 1 := by
  simp [storeChunk, h]

theorem reassemble_storeChunk_at_len (buf : RecvFile) (idx : Nat) (c : List Nat)
    (h : buf.len = idx) : reassemble (storeChunk buf idx c) = reassemble buf ++ c := by
  subst h
  simp only [reassemble, storeChunk]
  have hmax : buf.len ⊔ (buf.len + 1) = buf.len + 1 := by omega
  rw [hmax, List.range_succ, List.map_append, List.flatten_append]
  have h1 : (List.range buf.len).map
      (fun j => (if j = buf.len then some c else buf.chunks j).getD []) =
      (List.range buf.len).map (fun j => (buf.chunks j).getD []) := by
    apply List.map_congr_left
    intro j hj
    have : j ≠ buf.len := by have := List.mem_range.mp hj; omega
    simp [this]
  rw [h1]
  simp

theorem handleChunkMsg_encode (buf : RecvFile) (idx : Nat) (c : List Nat)
    (hc : ∀ b ∈ c, b < 256) :
    handleChunkMsg buf idx (b64Encode c) = storeChunk buf idx c := by
  simp [handleChunkMsg, b64_roundtrip _ hc]

theorem recvMsgs_sendLoop (bytes : List Nat) (hb : ∀ b ∈ bytes, b < 256) :
    ∀ n offset idx buf, bytes.length - offset ≤ n → buf.len = idx →
      reassemble (receiveMsgs (sendLoop bytes offset idx) buf)
        = reassemble buf ++ bytes.drop offset := by
  intro n
  induction n with
  | zero =>
      intro offset idx buf hle hlen
      have hoff : ¬ (offset + fileChunkSize < bytes.length) := by
        simp only [fileChunkSize]; omega
      have hvalid : ∀ b ∈ (bytes.drop offset).take fileChunkSize, b < 256 := by
        intro b hbmem
        exact hb b (List.drop_subset offset bytes (List.take_subset _ _ hbmem))
      have hchunk : (bytes.drop offset).take fileChunkSize = bytes.drop offset := by
        apply List.take_of_length_le
        simp only [List.length_drop, fileChunkSize]; omega
      rw [sendLoop, if_neg hoff, receiveMsgs_single, handleChunkMsg_encode buf idx _ hvalid,
        reassemble_storeChunk_at_len buf idx _ hlen, hchunk]
  | succ n ih =>
      intro offset idx buf hle hlen
      by_cases hoff : offset + fileChunkSize < bytes.length
      · have hvalid : ∀ b ∈ (bytes.drop offset).take fileChunkSize, b < 256 := by
          intro b hbmem
          exact hb b (List.drop_subset offset bytes (List.take_subset _ _ hbmem))
        have hm : bytes.length - (offset + fileChunkSize) ≤ n := by
          simp only [fileChunkSize] at *; omega
        have hlen2 : (storeChunk buf idx ((bytes.drop offset).take fileChunkSize)).len
            = idx + 1 := storeChunk_len_of_eq buf idx _ hlen
        rw [sendLoop, if_pos hoff, receiveMsgs_cons, handleChunkMsg_encode buf idx _ hvalid,
          ih (offset + fileChunkSize) (idx + 1) _ hm hlen2,
          reassemble_storeChunk_at_len buf idx _ hlen, List.append_assoc]
        congr 1
        rw [← List.drop_drop, List.take_append_drop]
      · have hvalid : ∀ b ∈ (bytes.drop offset).take fileChunkSize, b < 256 := by
          intro b hbmem
          exact hb b (List.drop_subset offset bytes (List.take_subset _ _ hbmem))
        have hchunk : (bytes.drop offset).take fileChunkSize = bytes.drop offset := by
          apply List.take_of_length_le
          simp only [List.length_drop, fileChunkSize] at *; omega
        rw [sendLoop, if_neg hoff, receiveMsgs_single, handleChunkMsg_encode buf idx _ hvalid,
          reassemble_storeChunk_at_len buf idx _ hlen, hchunk]

/-- C1: slicing a file into 64 KiB chunks, base64-encoding them, storing every
received chunk by index and reassembling on completion yields an artifact
byte-identical to the source file, of the same length (so a 3-chunk file of
sizes 65536, 65536, 10 reconstructs to a 131082-byte artifact). -/
theorem c1_reassembled_artifact_identical (file : List Nat)
    (hb : ∀ b ∈ file, b < 256) :
    reassemble (receiveMsgs (sendFileChunks file) emptyRecvFile) = file ∧
    (reassemble (receiveMsgs (sendFileChunks file) emptyRecvFile)).length = file.length := by
  have h := recvMsgs_sendLoop file hb file.length 0 0 emptyRecvFile (by omega) rfl
  rw [reassemble_emptyRecvFile, List.drop_zero, List.nil_append] at h
  simp only [sendFileChunks]
  exact ⟨h, by rw [h]⟩

theorem c1_reassembled_artifact_identical_witness :
    reassemble (receiveMsgs (sendFileChunks [0, 7, 255]) emptyRecvFile) = [0, 7, 255] ∧
    (reassemble (receiveMsgs (sendFileChunks [0, 7, 255]) emptyRecvFile)).length
      = ([0, 7, 255] : List Nat).length :=
  c1_reassembled_artifact_identical [0, 7, 255] (by decide)

theorem sendLoop_spec (bytes : List Nat) :
    ∀ n offset idx, offset < bytes.length → bytes.length - offset ≤ n →
      (sendLoop bytes offset idx).length
          = (bytes.length - offset + (fileChunkSize - 1)) / fileChunkSize ∧
      ∀ k, k < (sendLoop bytes offset idx).length →
        ((sendLoop bytes offset idx).getD k ⟨0, [], false⟩).chunkIndex = idx + k ∧
        ((sendLoop bytes offset idx).getD k ⟨0, [], false⟩).isLast
          = decide (offset + k * fileChunkSize + fileChunkSize ≥ bytes.length) := by
  have hcs : fileChunkSize = 65536 := rfl
  intro n
  induction n with
  | zero =>
      intro offset idx hofflt hle
      exact absurd hofflt (by omega)
  | succ n ih =>
      intro offset idx hofflt hle
      by_cases hoff : offset + fileChunkSize < bytes.length
      · have hrec := ih (offset + fileChunkSize) (idx + 1) (by omega) (by omega)
        rw [sendLoop, if_pos hoff]
        constructor
        · rw [List.length_cons, hrec.1, hcs]
          rw [hcs] at hoff
          omega
        · intro k hk
          cases k with
          | zero =>
              rw [List.getD_cons_zero]
              constructor
              · show idx = idx + 0
                omega
              · show decide (offset + fileChunkSize ≥ bytes.length)
                    = decide (offset + 0 * fileChunkSize + fileChunkSize ≥ bytes.length)
                rw [decide_eq_decide]
                omega
          | succ k =>
              rw [List.length_cons] at hk
              have hk2 : k < (sendLoop bytes (offset + fileChunkSize) (idx + 1)).length := by
                omega
              have h2 := hrec.2 k hk2
              rw [List.getD_cons_succ]
              constructor
              · rw [h2.1]; omega
              · rw [h2.2, decide_eq_decide, hcs]
                constructor <;> intro <;> omega
      · rw [sendLoop, if_neg hoff]
        constructor
        · rw [List.length_singleton, hcs]
          rw [hcs] at hoff
          omega
        · intro k hk
          rw [List.length_singleton] at hk
          cases k with
          | zero =>
              rw [List.getD_cons_zero]
              constructor
              · show idx = idx + 0
                omega
              · show decide (offset + fileChunkSize ≥ bytes.length)
                    = decide (offset + 0 * fileChunkSize + fileChunkSize ≥ bytes.length)
                rw [decide_eq_decide]
                omega
          | succ k => omega

/-- C7: for a non-empty file of size n, the emitted chunk with index i has
`isLast = (i * 65536 + 65536 ≥ n)`, so `isLast` is true exactly on the final
chunk, of index `ceil(n / 65536) - 1`, and false on all earlier chunks,
including when n is an exact multiple of 65536. -/
theorem c7_isLast_exactly_on_final_chunk (file : List Nat) (hne : file ≠ []) :
    (sendFileChunks file).length = (file.length + (fileChunkSize - 1)) / fileChunkSize ∧
    ∀ k, k < (sendFileChunks file).length →
      ((sendFileChunks file).getD k ⟨0, [], false⟩).chunkIndex = k ∧
      ((sendFileChunks file).getD k ⟨0, [], false⟩).isLast
        = decide (k * fileChunkSize + fileChunkSize ≥ file.length) ∧
      (((sendFileChunks file).getD k ⟨0, [], false⟩).isLast = true ↔
        k = (sendFileChunks file).length - 1) := by
  have hlen : 0 < file.length := List.length_pos.mpr hne
  have h := sendLoop_spec file file.length 0 0 hlen (by omega)
  simp only [Nat.sub_zero] at h
  simp only [sendFileChunks]
  refine ⟨h.1, ?_⟩
  intro k hk
  have h2 := h.2 k hk
  refine ⟨by rw [h2.1]; omega, ?_, ?_⟩
  · rw [h2.2, decide_eq_decide]
    omega
  · rw [h2.2]
    rw [h.1] at hk ⊢
    simp only [decide_eq_true_eq, fileChunkSize] at *
    constructor <;> intro <;> omega

theorem c7_isLast_exactly_on_final_chunk_witness :
    ((sendFileChunks [5]).getD 0 ⟨0, [], false⟩).isLast = true := by
  have h := c7_isLast_exactly_on_final_chunk [5] (by decide)
  have hl : (sendFileChunks [5]).length = 1 := by
    rw [h.1]; simp [fileChunkSize]
  exact ((h.2 0 (by omega)).2.2).mpr (by rw [hl])

theorem receiveMsgs_chunks (msgs : List ChunkMsg) :
    ∀ buf j, (receiveMsgs msgs buf).chunks j
      = match lastStore msgs j with
        | some v => some v
        | none => buf.chunks j := by
  induction msgs with
  | nil => intro buf j; rfl
  | cons m rest ih =>
      intro buf j
      have hstep : receiveMsgs (m :: rest) buf
          = receiveMsgs rest (handleChunkMsg buf m.chunkIndex m.data) := rfl
      rw [hstep, ih]
      simp only [lastStore]
      cases hrest : lastStore rest j with
      | some v => rfl
      | none =>
          simp only [handleChunkMsg, storeChunk]
          by_cases hj : m.chunkIndex = j
          · simp [hj]
          · have : ¬ (j = m.chunkIndex) := fun h => hj h.symm
            simp [hj, this]

theorem receiveMsgs_len (msgs : List ChunkMsg) :
    ∀ buf, (receiveMsgs msgs buf).len
      = msgs.foldl (fun a m => max a (m.chunkIndex + 1)) buf.len := by
  induction msgs with
  | nil => intro buf; rfl
  | cons m rest ih =>
      intro buf
      have hstep : receiveMsgs (m :: rest) buf
          = receiveMsgs rest (handleChunkMsg buf m.chunkIndex m.data) := rfl
      rw [hstep, ih, List.foldl_cons]
      rfl

theorem foldl_max_perm (l1 l2 : List ChunkMsg) (hperm : l1.Perm l2) :
    ∀ a : Nat, l1.foldl (fun a m => max a (m.chunkIndex + 1)) a
      = l2.foldl (fun a m => max a (m.chunkIndex + 1)) a := by
  induction hperm with
  | nil => intro a; rfl
  | cons x h ih =>
      intro a
      rw [List.foldl_cons, List.foldl_cons, ih]
  | swap x y l =>
      intro a
      rw [List.foldl_cons, List.foldl_cons, List.foldl_cons, List.foldl_cons]
      have hacc : a ⊔ (y.chunkIndex + 1) ⊔ (x.chunkIndex + 1)
          = a ⊔ (x.chunkIndex + 1) ⊔ (y.chunkIndex + 1) := by omega
      rw [hacc]
  | trans h1 h2 ih1 ih2 =>
      intro a
      rw [ih1, ih2]

theorem lastStore_perm (l1 l2 : List ChunkMsg) (hperm : l1.Perm l2)
    (hnodup : (l1.map (fun m => m.chunkIndex)).Nodup) :
    ∀ j, lastStore l1 j = lastStore l2 j := by
  induction hperm with
  | nil => intro j; rfl
  | @cons x t1 t2 h ih =>
      intro j
      rw [List.map_cons] at hnodup
      have hnd : (t1.map (fun m => m.chunkIndex)).Nodup := hnodup.of_cons
      simp only [lastStore, ih hnd j]
  | @swap x y l =>
      intro j
      rw [List.map_cons, List.map_cons] at hnodup
      have hxy : y.chunkIndex ≠ x.chunkIndex := by
        have h0 := (List.nodup_cons.mp hnodup).1
        intro hcontra
        exact h0 (by rw [hcontra]; exact List.mem_cons_self _ _)
      simp only [lastStore]
      cases hrest : lastStore l j with
      | some v => rfl
      | none =>
          by_cases hx : x.chunkIndex = j
          · have hy : ¬ (y.chunkIndex = j) := by
              intro hcontra; exact hxy (hcontra.trans hx.symm)
            simp [hx, hy]
          · by_cases hy : y.chunkIndex = j
            · simp [hx, hy]
            · simp [hx, hy]
  | @trans t1 t2 t3 h1 h2 ih1 ih2 =>
      intro j
      have hnd2 : (t2.map (fun m => m.chunkIndex)).Nodup :=
        ((h1.map (fun m => m.chunkIndex)).nodup_iff).mp hnodup
      rw [ih1 hnodup j, ih2 hnd2 j]

/-- C2: for a set of chunks with pairwise-distinct chunk indices, the artifact
reconstructed on completion does not depend on the arrival order of the
chunks; in particular chunk index 2 arriving before chunk index 1 leaves the
final artifact unchanged. -/
theorem c2_reassembly_order_independent (msgs1 msgs2 : List ChunkMsg)
    (hperm : msgs1.Perm msgs2)
    (hnodup : (msgs1.map (fun m => m.chunkIndex)).Nodup) :
    reassemble (receiveMsgs msgs2 emptyRecvFile)
      = reassemble (receiveMsgs msgs1 emptyRecvFile) := by
  have hlen : (receiveMsgs msgs2 emptyRecvFile).len
      = (receiveMsgs msgs1 emptyRecvFile).len := by
    rw [receiveMsgs_len, receiveMsgs_len]
    exact (foldl_max_perm msgs1 msgs2 hperm emptyRecvFile.len).symm
  have hchunks : ∀ j, (receiveMsgs msgs2 emptyRecvFile).chunks j
      = (receiveMsgs msgs1 emptyRecvFile).chunks j := by
    intro j
    rw [receiveMsgs_chunks, receiveMsgs_chunks, lastStore_perm msgs1 msgs2 hperm hnodup j]
  simp only [reassemble, hlen]
  congr 1
  apply List.map_congr_left
  intro j _
  rw [hchunks j]

theorem c2_reassembly_order_independent_witness :
    reassemble (receiveMsgs
        [⟨0, b64Encode [1], false⟩, ⟨2, b64Encode [3], true⟩, ⟨1, b64Encode [2], false⟩]
        emptyRecvFile)
      = reassemble (receiveMsgs
        [⟨0, b64Encode [1], false⟩, ⟨1, b64Encode [2], false⟩, ⟨2, b64Encode [3], true⟩]
        emptyRecvFile) :=
  c2_reassembly_order_independent
    [⟨0, b64Encode [1], false⟩, ⟨1, b64Encode [2], false⟩, ⟨2, b64Encode [3], true⟩]
    [⟨0, b64Encode [1], false⟩, ⟨2, b64Encode [3], true⟩, ⟨1, b64Encode [2], false⟩]
    (by decide) (by decide)

/-- C9: the liveness endpoint always returns a success (200) response whose
JSON body reports a status field, the process uptime, and the heap usage
rounded to the nearest megabyte, independent of the relay state. -/
theorem c9_health_endpoint (st st2 : ServerState) (uptime heapUsedBytes : Nat) :
    (healthH st uptime heapUsedBytes).1 = 200 ∧
    (healthH st uptime heapUsedBytes).2.status = ("healthy") ∧
    (healthH st uptime heapUsedBytes).2.uptime = uptime ∧
    (∃ m : Nat, (healthH st uptime heapUsedBytes).2.memory = toString m ++ ("MB") ∧
      m * 1048576 ≤ heapUsedBytes + 524288 ∧ heapUsedBytes ≤ m * 1048576 + 524288) ∧
    healthH st uptime heapUsedBytes = healthH st2 uptime heapUsedBytes := by
  refine ⟨rfl, rfl, rfl, ⟨(2 * heapUsedBytes + 1048576) / 2097152, rfl, by omega, by omega⟩,
    rfl⟩

/-! ## Map lemmas -/

theorem mapGet_some_mem {K V : Type} [DecidableEq K] {m : List (K × V)} {k : K} {v : V}
    (h : mapGet m k = some v) : (k, v) ∈ m := by
  simp only [mapGet, Option.map_eq_some'] at h
  obtain ⟨q, hq, hv⟩ := h
  have hmem := List.mem_of_find?_eq_some hq
  have hp := List.find?_some hq
  have hk : q.1 = k := by simpa using hp
  have : q = (k, v) := by
    cases q
    simp only [Prod.mk.injEq]
    exact ⟨hk, hv⟩
  rw [← this]
  exact hmem

theorem mem_mapSet {K V : Type} [DecidableEq K] (m : List (K × V)) (k : K) (v : V) :
    ∀ p ∈ mapSet m k v, p = (k, v) ∨ p ∈ m := by
  intro p hp
  simp only [mapSet] at hp
  split at hp
  · obtain ⟨q, hq, heq⟩ := List.mem_map.mp hp
    by_cases hqk : q.1 = k
    · rw [if_pos hqk] at heq
      left; exact heq.symm
    · rw [if_neg hqk] at heq
      right; rw [← heq]; exact hq
  · rcases List.mem_append.mp hp with h | h
    · right; exact h
    · left; simpa using h

theorem mapGet_map_replace {K V : Type} [DecidableEq K] (k : K) (v : V) :
    ∀ m : List (K × V), (mapGet m k).isSome →
      mapGet (m.map (fun p => if p.1 = k then (k, v) else p)) k = some v := by
  intro m
  induction m with
  | nil => intro h; simp [mapGet] at h
  | cons q m ih =>
      intro h
      by_cases hq : q.1 = k
      · simp only [List.map_cons, if_pos hq, mapGet]
        rw [List.find?_cons_of_pos _ (by simp)]
        rfl
      · simp only [List.map_cons, if_neg hq, mapGet]
        rw [List.find?_cons_of_neg _ (by simpa using hq)]
        simp only [mapGet] at ih ⊢
        apply ih
        simp only [mapGet] at h
        rw [List.find?_cons_of_neg _ (by simpa using hq)] at h
        exact h

theorem mapGet_mapSet_self {K V : Type} [DecidableEq K] (m : List (K × V)) (k : K) (v : V) :
    mapGet (mapSet m k v) k = some v := by
  simp only [mapSet]
  split
  · exact mapGet_map_replace k v m (by assumption)
  · rename_i hnone
    induction m with
    | nil =>
        simp only [List.nil_append, mapGet]
        rw [List.find?_cons_of_pos _ (by simp)]
        rfl
    | cons q m ih =>
        have hq : ¬ (q.1 = k) := by
          intro hcontra
          apply hnone
          simp only [mapGet]
          rw [List.find?_cons_of_pos _ (by simpa using hcontra)]
          simp
        simp only [List.cons_append, mapGet]
        rw [List.find?_cons_of_neg _ (by simpa using hq)]
        simp only [mapGet] at ih
        apply ih
        intro hcontra
        apply hnone
        simp only [mapGet] at hcontra ⊢
        rw [List.find?_cons_of_neg _ (by simpa using hq)]
        exact hcontra

theorem checkRateLimit_rooms (st : ServerState) (sid : String) (now : Nat) :
    (checkRateLimit st sid now).2.rooms = st.rooms := by
  simp only [checkRateLimit]
  split <;> rfl

theorem checkRateLimit_denied (st : ServerState) (sid : String) (now : Nat)
    (h : ¬ rlAllowed st sid now) : checkRateLimit st sid now = (false, st) := by
  simp only [checkRateLimit]
  rw [if_pos]
  simp only [rlAllowed] at h
  omega

theorem checkRateLimit_granted (st : ServerState) (sid : String) (now : Nat)
    (h : rlAllowed st sid now) :
    checkRateLimit st sid now
      = (true, { st with rateLimit := (mapSet st.rateLimit sid
          ((((mapGet st.rateLimit sid).getD []).filter (fun t => now - t < rlWindowMs))
            ++ [now])) }) := by
  simp only [checkRateLimit]
  rw [if_neg]
  simp only [rlAllowed] at h
  omega

theorem checkRateLimit_fst_iff (st : ServerState) (sid : String) (now : Nat) :
    (checkRateLimit st sid now).1 = true ↔ rlAllowed st sid now := by
  by_cases hadm : rlAllowed st sid now
  · rw [checkRateLimit_granted st sid now hadm]
    exact iff_of_true rfl hadm
  · rw [checkRateLimit_denied st sid now hadm]
    exact iff_of_false (fun hc => Bool.noConfusion hc) hadm

theorem checkRateLimit_record (st : ServerState) (sid : String) (now : Nat)
    (h : (checkRateLimit st sid now).1 = true) :
    mapGet (checkRateLimit st sid now).2.rateLimit sid
      = some ((((mapGet st.rateLimit sid).getD []).filter (fun t => now - t < rlWindowMs))
          ++ [now]) := by
  by_cases hadm : rlAllowed st sid now
  · rw [checkRateLimit_granted st sid now hadm]
    exact mapGet_mapSet_self _ _ _
  · rw [checkRateLimit_denied st sid now hadm] at h
    exact Bool.noConfusion h

theorem runRateChecks_cons (st : ServerState) (sid : String) (t : Nat) (ts : List Nat) :
    (runRateChecks st sid (t :: ts)).1
      = (checkRateLimit st sid t).1 :: (runRateChecks (checkRateLimit st sid t).2 sid ts).1 :=
  rfl

theorem runRate_replicate (T : Nat) (sid : String) :
    ∀ n k (st : ServerState), k ≤ rlMaxRequests →
      (mapGet st.rateLimit sid).getD [] = List.replicate k T →
      (runRateChecks st sid (List.replicate n T)).1
        = (List.range n).map (fun i => decide (k + i < rlMaxRequests)) := by
  intro n
  induction n with
  | zero => intro k st hk hst; simp [runRateChecks]
  | succ n ih =>
      intro k st hk hst
      have hfilter : (((mapGet st.rateLimit sid).getD []).filter
          (fun t => T - t < rlWindowMs)) = List.replicate k T := by
        rw [hst]
        apply List.filter_eq_self.mpr
        intro a ha
        have : a = T := List.eq_of_mem_replicate ha
        subst this
        simp [rlWindowMs]
      rw [List.replicate_succ, runRateChecks_cons]
      by_cases hadm : rlAllowed st sid T
      · have hgr := checkRateLimit_granted st sid T hadm
        have hfst : (checkRateLimit st sid T).1 = true := by rw [hgr]
        have hsnd : (checkRateLimit st sid T).2 = { st with rateLimit := (mapSet st.rateLimit
            sid ((((mapGet st.rateLimit sid).getD []).filter (fun t => T - t < rlWindowMs))
              ++ [T])) } := by rw [hgr]
        rw [hfst, hsnd]
        have hk30 : k < rlMaxRequests := by
          simp only [rlAllowed, hfilter, List.length_replicate] at hadm
          exact hadm
        have hrec : (mapGet ({ st with rateLimit := (mapSet st.rateLimit sid
            ((((mapGet st.rateLimit sid).getD []).filter (fun t => T - t < rlWindowMs))
              ++ [T])) } : ServerState).rateLimit sid).getD [] = List.replicate (k + 1) T := by
          rw [show ({ st with rateLimit := (mapSet st.rateLimit sid
            ((((mapGet st.rateLimit sid).getD []).filter (fun t => T - t < rlWindowMs))
              ++ [T])) } : ServerState).rateLimit = (mapSet st.rateLimit sid
            ((((mapGet st.rateLimit sid).getD []).filter (fun t => T - t < rlWindowMs))
              ++ [T])) from rfl]
          rw [mapGet_mapSet_self, Option.getD_some, hfilter]
          rw [← List.replicate_succ']
        rw [ih (k + 1) _ (by omega) hrec]
        rw [List.range_succ_eq_map, List.map_cons, List.map_map]
        congr 1
        · refine (decide_eq_true ?_).symm
          omega
        · apply List.map_congr_left
          intro i _
          rw [Function.comp_apply, decide_eq_decide]
          omega
      · have hden := checkRateLimit_denied st sid T hadm
        have hfst : (checkRateLimit st sid T).1 = false := by rw [hden]
        have hsnd : (checkRateLimit st sid T).2 = st := by rw [hden]
        rw [hfst, hsnd]
        have hk30 : ¬ (k < rlMaxRequests) := by
          simp only [rlAllowed, hfilter, List.length_replicate] at hadm
          exact hadm
        rw [ih k st hk hst]
        rw [List.range_succ_eq_map, List.map_cons, List.map_map]
        congr 1
        · refine (decide_eq_false ?_).symm
          omega
        · apply List.map_congr_left
          intro i _
          rw [Function.comp_apply, decide_eq_decide]
          omega

/-- C4: an admission check succeeds exactly when fewer than 30 recorded
timestamps lie strictly within the trailing 60-second window, a granted
check appends the attempt time to the connection's record, and from a fresh
state a run of 31 attempts inside one window grants the first 30 and denies
the 31st. -/
theorem c4_rate_limiter (st : ServerState) (sid : String) (now T : Nat) :
    ((checkRateLimit st sid now).1 = true ↔
      (((mapGet st.rateLimit sid).getD []).filter (fun t => now - t < rlWindowMs)).length
        < rlMaxRequests) ∧
    ((checkRateLimit st sid now).1 = true →
      mapGet (checkRateLimit st sid now).2.rateLimit sid
        = some ((((mapGet st.rateLimit sid).getD []).filter (fun t => now - t < rlWindowMs))
            ++ [now])) ∧
    (runRateChecks initialState sid (List.replicate (rlMaxRequests + 1) T)).1
      = (List.range (rlMaxRequests + 1)).map (fun i => decide (i < rlMaxRequests)) := by
  refine ⟨checkRateLimit_fst_iff st sid now, checkRateLimit_record st sid now, ?_⟩
  have h := runRate_replicate T sid (rlMaxRequests + 1) 0 initialState (by omega)
    (by simp [initialState, mapGet])
  rw [h]
  apply List.map_congr_left
  intro i _
  rw [decide_eq_decide]
  omega

theorem c4_rate_limiter_witness :
    mapGet (checkRateLimit initialState ("s1") 5).2.rateLimit ("s1") = some [5] :=
  (c4_rate_limiter initialState ("s1") 5 0).2.1 (by decide)

theorem joinProceed_inv (st : ServerState) (sid : String) (r : List Char)
    (hinv : RoomsInv st.rooms)
    (hcard : ((mapGet st.rooms r).getD ∅).card < maxRoomSize) :
    RoomsInv (joinProceed st sid r).1.rooms := by
  intro p hp
  simp only [joinProceed] at hp
  rcases mem_mapSet _ _ _ p hp with heq | hmem
  · rw [heq]
    refine ⟨Finset.insert_nonempty _ _, ?_⟩
    calc (insert sid ((mapGet st.rooms r).getD ∅)).card
        ≤ ((mapGet st.rooms r).getD ∅).card + 1 := Finset.card_insert_le _ _
      _ ≤ maxRoomSize := by omega
  · exact hinv p hmem

theorem joinRoom_inv (st : ServerState) (sid : String) (raw : RawRoomId) (now : Nat)
    (hinv : RoomsInv st.rooms) : RoomsInv (joinRoom st sid raw now).1.rooms := by
  have hrooms1 := checkRateLimit_rooms st sid now
  simp only [joinRoom]
  split
  · rename_i st1 heq
    have hst1 : st1.rooms = st.rooms := by rw [heq] at hrooms1; exact hrooms1
    have hres : RoomsInv st1.rooms := by rw [hst1]; exact hinv
    exact hres
  · rename_i st1 heq
    have hst1 : st1.rooms = st.rooms := by rw [heq] at hrooms1; exact hrooms1
    have hinv1 : RoomsInv st1.rooms := by rw [hst1]; exact hinv
    split
    · exact hinv1
    · rename_i s
      split
      · exact hinv1
      · split
        · split
          · split
            · exact hinv1
            · rename_i members hm hc
              apply joinProceed_inv st1 sid _ hinv1
              rw [hm, Option.getD_some]
              omega
          · rename_i hm
            apply joinProceed_inv st1 sid _ hinv1
            rw [hm]
            simp only [Option.getD_none, Finset.card_empty, maxRoomSize]
            omega
        · exact hinv1

theorem leaveRoom_inv (st : ServerState) (sid : String) (roomId : List Char)
    (hinv : RoomsInv st.rooms) : RoomsInv (leaveRoom st sid roomId).1.rooms := by
  simp only [leaveRoom]
  split
  · rename_i users hm
    split
    · rename_i hmem
      split
      · intro p hp
        exact hinv p (List.mem_of_mem_filter hp)
      · rename_i hcard
        intro p hp
        rcases mem_mapSet _ _ _ p hp with heq | hpmem
        · rw [heq]
          constructor
          · show ((users.erase sid : Finset String)).Nonempty
            exact Finset.card_pos.mp (by omega)
          · show (users.erase sid).card ≤ maxRoomSize
            calc (users.erase sid).card
                ≤ users.card := Finset.card_erase_le
              _ ≤ maxRoomSize := (hinv (roomId, users) (mapGet_some_mem hm)).2
        · exact hinv p hpmem
    · exact hinv
  · exact hinv

theorem disconnectH_inv (st : ServerState) (sid : String)
    (hinv : RoomsInv st.rooms) : RoomsInv (disconnectH st sid).1.rooms := by
  intro p hp
  simp only [disconnectH] at hp
  obtain ⟨q, hq, hf⟩ := List.mem_filterMap.mp hp
  by_cases hmem : sid ∈ q.2
  · rw [if_pos hmem] at hf
    by_cases hcard : (q.2.erase sid).card = 0
    · rw [if_pos hcard] at hf
      exact absurd hf (by simp)
    · rw [if_neg hcard] at hf
      have hp2 : p = (q.1, q.2.erase sid) := by simpa using hf.symm
      rw [hp2]
      constructor
      · show ((q.2.erase sid : Finset String)).Nonempty
        exact Finset.card_pos.mp (by omega)
      · show (q.2.erase sid).card ≤ maxRoomSize
        calc (q.2.erase sid).card
            ≤ q.2.card := Finset.card_erase_le
          _ ≤ maxRoomSize := (hinv q hq).2
  · rw [if_neg hmem] at hf
    have hp2 : p = q := by simpa using hf.symm
    rw [hp2]
    exact hinv q hq

theorem sweepH_inv (st : ServerState) (now : Nat)
    (hinv : RoomsInv st.rooms) : RoomsInv (sweepH st now).rooms := by
  intro p hp
  simp only [sweepH] at hp
  exact hinv p (List.mem_of_mem_filter hp)

/-- C3: the registry invariant — every registered room has a non-empty member
set of at most 10 members — holds in the initial empty state and is preserved
by the join-room, leave-room, disconnect, and periodic-sweep operations. -/
theorem c3_room_registry_invariant :
    RoomsInv initialState.rooms ∧
    (∀ st sid raw now, RoomsInv st.rooms → RoomsInv (joinRoom st sid raw now).1.rooms) ∧
    (∀ st sid roomId, RoomsInv st.rooms → RoomsInv (leaveRoom st sid roomId).1.rooms) ∧
    (∀ st sid, RoomsInv st.rooms → RoomsInv (disconnectH st sid).1.rooms) ∧
    (∀ st now, RoomsInv st.rooms → RoomsInv (sweepH st now).rooms) := by
  refine ⟨?_, joinRoom_inv, leaveRoom_inv, disconnectH_inv, sweepH_inv⟩
  intro p hp
  exact absurd hp (List.not_mem_nil p)

theorem c3_room_registry_invariant_witness :
    RoomsInv (joinRoom initialState ("alice")
      (RawRoomId.str (("ROOM01").toList)) 0).1.rooms :=
  c3_room_registry_invariant.2.1 initialState ("alice") (RawRoomId.str (("ROOM01").toList)) 0
    (fun p hp => absurd hp (List.not_mem_nil p))

/-- C8: every rejected join — malformed or missing room code, rate-limit
denial, or full target room — emits a single structured error event to the
requesting connection only, never disconnects it, and leaves the rooms map
unchanged. -/
theorem c8_rejected_join_emits_error_only (st : ServerState) (sid : String)
    (raw : RawRoomId) (now : Nat) (hrej : joinRejected st sid raw now) :
    (∃ msg, (joinRoom st sid raw now).2 = [SAction.emit sid (SEvent.errorMsg msg)]) ∧
    (joinRoom st sid raw now).1.rooms = st.rooms ∧
    (∀ a ∈ (joinRoom st sid raw now).2, ∀ t, a ≠ SAction.disconnectSock t) := by
  have hrooms1 := checkRateLimit_rooms st sid now
  simp only [joinRoom]
  split
  · rename_i st1 heq
    have hst1 : st1.rooms = st.rooms := by rw [heq] at hrooms1; exact hrooms1
    refine ⟨⟨_, rfl⟩, hst1, ?_⟩
    intro a ha t
    simp only [List.mem_singleton] at ha
    rw [ha]
    intro hcontra
    exact SAction.noConfusion hcontra
  · rename_i st1 heq
    have hst1 : st1.rooms = st.rooms := by rw [heq] at hrooms1; exact hrooms1
    have hadm : rlAllowed st sid now :=
      (checkRateLimit_fst_iff st sid now).mp (by rw [heq])
    split
    · refine ⟨⟨_, rfl⟩, hst1, ?_⟩
      intro a ha t
      simp only [List.mem_singleton] at ha
      rw [ha]
      intro hcontra
      exact SAction.noConfusion hcontra
    · rename_i s
      split
      · refine ⟨⟨_, rfl⟩, hst1, ?_⟩
        intro a ha t
        simp only [List.mem_singleton] at ha
        rw [ha]
        intro hcontra
        exact SAction.noConfusion hcontra
      · rename_i hs
        split
        · rename_i hv
          split
          · rename_i members hm
            split
            · refine ⟨⟨_, rfl⟩, hst1, ?_⟩
              intro a ha t
              simp only [List.mem_singleton] at ha
              rw [ha]
              intro hcontra
              exact SAction.noConfusion hcontra
            · rename_i hc
              exfalso
              rcases hrej with h1 | h2 | ⟨s2, hs2, hcase⟩
              · exact h1 hadm
              · exact RawRoomId.noConfusion h2
              · have hss : s = s2 := by
                  injection hs2 with h3
                rcases hss ▸ hcase with hnil | hval | hfull
                · exact hs hnil
                · rw [hval] at hv
                  exact Bool.noConfusion hv
                · rw [hst1] at hm
                  rw [hm, Option.getD_some] at hfull
                  exact hc hfull
          · rename_i hm
            exfalso
            rcases hrej with h1 | h2 | ⟨s2, hs2, hcase⟩
            · exact h1 hadm
            · exact RawRoomId.noConfusion h2
            · have hss : s = s2 := by
                injection hs2 with h3
              rcases hss ▸ hcase with hnil | hval | hfull
              · exact hs hnil
              · rw [hval] at hv
                exact Bool.noConfusion hv
              · rw [hst1] at hm
                rw [hm, Option.getD_none] at hfull
                simp [maxRoomSize] at hfull
        · refine ⟨⟨_, rfl⟩, hst1, ?_⟩
          intro a ha t
          simp only [List.mem_singleton] at ha
          rw [ha]
          intro hcontra
          exact SAction.noConfusion hcontra

theorem c8_rejected_join_emits_error_only_witness :
    (∃ msg, (joinRoom initialState ("bob") (RawRoomId.str (("ab").toList)) 0).2
      = [SAction.emit ("bob") (SEvent.errorMsg msg)]) ∧
    (joinRoom initialState ("bob") (RawRoomId.str (("ab").toList)) 0).1.rooms
      = initialState.rooms ∧
    (∀ a ∈ (joinRoom initialState ("bob") (RawRoomId.str (("ab").toList)) 0).2,
      ∀ t, a ≠ SAction.disconnectSock t) :=
  c8_rejected_join_emits_error_only initialState ("bob") (RawRoomId.str (("ab").toList)) 0
    (Or.inr (Or.inr ⟨("ab").toList, rfl, Or.inr (Or.inl (by decide))⟩))

/-- C10: the rate-limit check runs before room-code validation, so every
admitted `join-room` event appends its timestamp to the connection's
rate-limit record even when the code then fails format validation (in which
case the rooms map is unchanged and only the format error is emitted); such
rejected attempts still consume the 30-per-minute admission budget. -/
theorem c10_admitted_attempt_always_recorded (st : ServerState) (sid : String)
    (raw : RawRoomId) (now : Nat) (hadm : rlAllowed st sid now) :
    mapGet (joinRoom st sid raw now).1.rateLimit sid
      = some ((((mapGet st.rateLimit sid).getD []).filter (fun t => now - t < rlWindowMs))
          ++ [now]) ∧
    (∀ s, raw = RawRoomId.str s → s ≠ [] →
      validateRoomId (sanitizeRoomId s) = false →
      (joinRoom st sid raw now).1.rooms = st.rooms ∧
      (joinRoom st sid raw now).2 = [SAction.emit sid
        (SEvent.errorMsg ("Room code must be 6 alphanumeric characters."))]) := by
  have hfst : (checkRateLimit st sid now).1 = true :=
    (checkRateLimit_fst_iff st sid now).mpr hadm
  have hrec := checkRateLimit_record st sid now hfst
  have hrooms1 := checkRateLimit_rooms st sid now
  constructor
  · simp only [joinRoom]
    split
    · rename_i st1 heq
      rw [heq] at hfst
      exact Bool.noConfusion hfst
    · rename_i st1 heq
      have hrec1 : mapGet st1.rateLimit sid
          = some ((List.filter (fun t => now - t < rlWindowMs)
              ((mapGet st.rateLimit sid).getD [])) ++ [now]) := by
        rw [heq] at hrec
        exact hrec
      split
      · exact hrec1
      · rename_i s
        split
        · exact hrec1
        · split
          · split
            · split
              · exact hrec1
              · exact hrec1
            · exact hrec1
          · exact hrec1
  · intro s hraw hs hval
    subst hraw
    simp only [joinRoom]
    split
    · rename_i st1 heq
      rw [heq] at hfst
      exact Bool.noConfusion hfst
    · rename_i st1 heq
      have hst1 : st1.rooms = st.rooms := by rw [heq] at hrooms1; exact hrooms1
      split
      · rename_i hcontra
        exact absurd hcontra hs
      · rw [if_neg (by rw [hval]; exact Bool.false_ne_true)]
        exact ⟨hst1, rfl⟩

theorem c10_admitted_attempt_always_recorded_witness :
    mapGet (joinRoom initialState ("s2") (RawRoomId.str (("abc123").toList)) 7).1.rateLimit
      ("s2") = some [7] ∧
    (joinRoom initialState ("s2") (RawRoomId.str (("abc123").toList)) 7).1.rooms
      = initialState.rooms := by
  have h := c10_admitted_attempt_always_recorded initialState ("s2")
    (RawRoomId.str (("abc123").toList)) 7 (by decide)
  exact ⟨h.1, (h.2 (("abc123").toList) rfl (by decide) (by decide)).1⟩

/-! ## Sanitization (C5) -/

/-- C5 counterexample: the claim says lowercase input abc123 sanitizes to
ABC123 and is accepted; in the code the `[^A-Z0-9]` strip runs before
`toUpperCase`, so abc123 sanitizes to 123 (not ABC123) and the sanitized
code fails the format check. -/
theorem c5_counterexample :
    sanitizeRoomId (("abc123").toList) = ("123").toList ∧
    ¬ (sanitizeRoomId (("abc123").toList) = ("ABC123").toList) ∧
    validateRoomId (sanitizeRoomId (("abc123").toList)) = false := by decide

theorem sanitizeRoomId_eq_filter_take (s : List Char) :
    sanitizeRoomId s = (s.filter isUpperAlnum).take 6 := by
  simp only [sanitizeRoomId]
  have hid : ∀ c ∈ (s.filter isUpperAlnum).take 6, jsToUpper c = c := by
    intro c hc
    have hmem := List.mem_filter.mp (List.take_subset _ _ hc)
    have hcls := hmem.2
    simp only [isUpperAlnum, Bool.or_eq_true, Bool.and_eq_true, decide_eq_true_eq] at hcls
    simp only [jsToUpper]
    rw [if_neg]
    omega
  rw [List.map_congr_left hid]
  exact List.map_id _

/-- C5 (amended): sanitization strips every character outside `[A-Z0-9]`
(lowercase letters are removed, not uppercased — the trailing `toUpperCase`
is a no-op on the already-filtered text) and truncates to 6 characters; the
sanitized code passes the format check exactly when the raw code contains at
least 6 characters in `[A-Z0-9]`, and an admitted join of a non-empty string
code is answered with the format error exactly when that check fails. -/
theorem c5_sanitize_and_format_gate :
    (∀ s : List Char, sanitizeRoomId s = (s.filter isUpperAlnum).take 6) ∧
    (∀ s : List Char,
      (validateRoomId (sanitizeRoomId s) = true ↔ 6 ≤ (s.filter isUpperAlnum).length)) ∧
    (∀ (st : ServerState) (sid : String) (s : List Char) (now : Nat),
      rlAllowed st sid now → s ≠ [] →
      ((joinRoom st sid (RawRoomId.str s) now).2
          = [SAction.emit sid (SEvent.errorMsg ("Room code must be 6 alphanumeric characters."))]
        ↔ validateRoomId (sanitizeRoomId s) = false)) := by
  refine ⟨sanitizeRoomId_eq_filter_take, ?_, ?_⟩
  · intro s
    rw [sanitizeRoomId_eq_filter_take]
    simp only [validateRoomId, Bool.and_eq_true, decide_eq_true_eq, List.all_eq_true,
      List.length_take]
    constructor
    · intro h
      omega
    · intro h
      refine ⟨by omega, ?_⟩
      intro c hc
      exact (List.mem_filter.mp (List.take_subset _ _ hc)).2
  · intro st sid s now hadm hs
    have hfst : (checkRateLimit st sid now).1 = true :=
      (checkRateLimit_fst_iff st sid now).mpr hadm
    constructor
    · intro hout
      by_contra hv
      rw [Bool.not_eq_false] at hv
      revert hout
      simp only [joinRoom]
      split
      · rename_i st1 heq
        rw [heq] at hfst
        exact fun _ => Bool.noConfusion hfst
      · rename_i st1 heq
        rw [if_neg hs, if_pos hv]
        split
        · rename_i members hm
          split
          · intro hout
            simp only [List.cons.injEq, and_true, SAction.emit.injEq, true_and,
              SEvent.errorMsg.injEq] at hout
            revert hout
            decide
          · intro hout
            simp [joinProceed] at hout
        · intro hout
          simp [joinProceed] at hout
    · intro hv
      simp only [joinRoom]
      split
      · rename_i st1 heq
        rw [heq] at hfst
        exact Bool.noConfusion hfst
      · rw [if_neg hs, if_neg (by rw [hv]; exact Bool.false_ne_true)]

theorem c5_sanitize_and_format_gate_witness :
    (joinRoom initialState ("s3") (RawRoomId.str (("room01").toList)) 0).2
      = [SAction.emit ("s3")
          (SEvent.errorMsg ("Room code must be 6 alphanumeric characters."))] :=
  (c5_sanitize_and_format_gate.2.2 initialState ("s3") (("room01").toList) 0
    (by decide) (by decide)).mpr (by decide)

/-- C6: the relay never delivers a room-broadcast event (file-info,
file-chunk, file-complete, and the join/leave notifications) back to the
connection that sent it; the file events go exactly to the other current
members of the named room, tagged with the sender identity. -/
theorem c6_relay_never_echoes_to_sender :
    (∀ st sender room fid fn fs mt,
      fileInfoH st sender room fid fn fs mt
        = [SAction.emitRoom ((roomMembers st room).erase sender)
            (SEvent.fileInfoEv fid fn fs mt sender)] ∧
      sender ∉ (roomMembers st room).erase sender ∧
      (SEvent.fileInfoEv fid fn fs mt sender).senderTag = some sender ∧
      ∀ x, x ∈ (roomMembers st room).erase sender ↔ x ∈ roomMembers st room ∧ x ≠ sender) ∧
    (∀ st sender room fid ci d il,
      fileChunkH st sender room fid ci d il
        = [SAction.emitRoom ((roomMembers st room).erase sender)
            (SEvent.fileChunkEv fid ci d il sender)] ∧
      sender ∉ (roomMembers st room).erase sender ∧
      (SEvent.fileChunkEv fid ci d il sender).senderTag = some sender ∧
      ∀ x, x ∈ (roomMembers st room).erase sender ↔ x ∈ roomMembers st room ∧ x ≠ sender) ∧
    (∀ st sender room fid,
      fileCompleteH st sender room fid
        = [SAction.emitRoom ((roomMembers st room).erase sender)
            (SEvent.fileCompleteEv fid sender)] ∧
      sender ∉ (roomMembers st room).erase sender ∧
      (SEvent.fileCompleteEv fid sender).senderTag = some sender ∧
      ∀ x, x ∈ (roomMembers st room).erase sender ↔ x ∈ roomMembers st room ∧ x ≠ sender) ∧
    (∀ st sid raw now recips, SAction.emitRoom recips (SEvent.userJoined sid)
        ∈ (joinRoom st sid raw now).2 → sid ∉ recips) ∧
    (∀ st sid roomId recips, SAction.emitRoom recips (SEvent.userLeft sid)
        ∈ (leaveRoom st sid roomId).2 → sid ∉ recips) ∧
    (∀ st sid recips, SAction.emitRoom recips (SEvent.userLeft sid)
        ∈ (disconnectH st sid).2 → sid ∉ recips) := by
  refine ⟨?_, ?_, ?_, ?_, ?_, ?_⟩
  · intro st sender room fid fn fs mt
    refine ⟨rfl, Finset.not_mem_erase sender _, rfl, ?_⟩
    intro x
    rw [Finset.mem_erase]
    exact ⟨fun h => ⟨h.2, h.1⟩, fun h => ⟨h.2, h.1⟩⟩
  · intro st sender room fid ci d il
    refine ⟨rfl, Finset.not_mem_erase sender _, rfl, ?_⟩
    intro x
    rw [Finset.mem_erase]
    exact ⟨fun h => ⟨h.2, h.1⟩, fun h => ⟨h.2, h.1⟩⟩
  · intro st sender room fid
    refine ⟨rfl, Finset.not_mem_erase sender _, rfl, ?_⟩
    intro x
    rw [Finset.mem_erase]
    exact ⟨fun h => ⟨h.2, h.1⟩, fun h => ⟨h.2, h.1⟩⟩
  · intro st sid raw now recips hmem
    revert hmem
    simp only [joinRoom]
    split
    · intro hmem
      simp only [List.mem_singleton] at hmem
      exact absurd hmem (by intro h; exact SAction.noConfusion h)
    · split
      · intro hmem
        simp only [List.mem_singleton] at hmem
        exact absurd hmem (by intro h; exact SAction.noConfusion h)
      · split
        · intro hmem
          simp only [List.mem_singleton] at hmem
          exact absurd hmem (by intro h; exact SAction.noConfusion h)
        · split
          · split
            · split
              · intro hmem
                simp only [List.mem_singleton] at hmem
                exact absurd hmem (by intro h; exact SAction.noConfusion h)
              · intro hmem
                simp only [joinProceed, List.mem_cons, List.mem_singleton] at hmem
                rcases hmem with h1 | h2 | h3 | h4
                · exact absurd h1 (by intro h; exact SAction.noConfusion h)
                · injection h2 with ha hb
                  rw [ha]
                  exact Finset.not_mem_erase sid _
                · injection h3 with ha hb
                  exact absurd hb (by intro h; exact SEvent.noConfusion h)
                · exact absurd h4 (List.not_mem_nil _)
            · intro hmem
              simp only [joinProceed, List.mem_cons, List.mem_singleton] at hmem
              rcases hmem with h1 | h2 | h3 | h4
              · exact absurd h1 (by intro h; exact SAction.noConfusion h)
              · injection h2 with ha hb
                rw [ha]
                exact Finset.not_mem_erase sid _
              · injection h3 with ha hb
                exact absurd hb (by intro h; exact SEvent.noConfusion h)
              · exact absurd h4 (List.not_mem_nil _)
          · intro hmem
            simp only [List.mem_singleton] at hmem
            exact absurd hmem (by intro h; exact SAction.noConfusion h)
  · intro st sid roomId recips hmem
    revert hmem
    simp only [leaveRoom]
    split
    · rename_i users hm
      split
      · intro hmem
        simp only [List.mem_singleton] at hmem
        have hrec : recips = users.erase sid := by
          injection hmem with ha hb
        rw [hrec]
        exact Finset.not_mem_erase sid _
      · intro hmem
        exact absurd hmem (List.not_mem_nil _)
    · intro hmem
      exact absurd hmem (List.not_mem_nil _)
  · intro st sid recips hmem
    simp only [disconnectH] at hmem
    obtain ⟨q, hq, hf⟩ := List.mem_filterMap.mp hmem
    by_cases hqmem : sid ∈ q.2
    · rw [if_pos hqmem] at hf
      have hrec : recips = q.2.erase sid := by
        have := Option.some.inj hf
        injection this with ha hb
        exact ha.symm
      rw [hrec]
      exact Finset.not_mem_erase sid _
    · rw [if_neg hqmem] at hf
      exact absurd hf (by simp)

theorem c6_relay_never_echoes_to_sender_witness :
    ("a" : String) ∉ ((({("a" : String), ("b" : String)} : Finset String)).erase ("a")) :=
  c6_relay_never_echoes_to_sender.2.2.2.2.1
    ⟨[((("R").toList), ({("a" : String), ("b" : String)} : Finset String))], []⟩
    ("a") (("R").toList)
    ((({("a" : String), ("b" : String)} : Finset String)).erase ("a"))
    (by decide)

end ShareMe
